import Mathlib

/-!
Verification of the SPLICE drum-pattern decoder (`decoder.go`, package `drum`).

The byte stream is modelled as a `List Nat` (each element one byte, `0..255`).
Reads follow Go `io.ReadFull` semantics: a request for `n` bytes succeeds iff
`n` bytes are available; it fails with `io.EOF` when the stream is empty and
with `io.ErrUnexpectedEOF` after a partial read (which consumes the rest of
the stream).  `binary.Read` of a fixed-size value is a `ReadFull` of its wire
size followed by a pure conversion.  The `float32` tempo is represented by its
little-endian 32-bit pattern as a `Nat` (the decoder never computes with the
float, it only stores the bits).  `io.LimitReader(r, n)` over a list reader is
modelled by restricting the loop to the first `max n 0` bytes of the
remaining stream, which has exactly the same read/EOF behaviour.
-/

namespace Drum

/-- Errors a decode can end with: `io.EOF`, `io.ErrUnexpectedEOF`, and the
package-level `InvalidHeader` error. -/
inductive DecodeErr where
  | eof
  | unexpectedEOF
  | invalidHeader
deriving DecidableEq

/-- `io.ReadFull` on a list stream: returns the `n` bytes read and the rest of
the stream.  `io.EOF` when no bytes are available (and `n > 0`),
`io.ErrUnexpectedEOF` after a partial read, which consumes what was left. -/
def readFullR (n : Nat) (s : List Nat) : Except DecodeErr (List Nat) × List Nat :=
  if n ≤ s.length then (.ok (s.take n), s.drop n)
  else if s.length = 0 then (.error .eof, s)
  else (.error .unexpectedEOF, [])

/-- Little-endian value of a byte list (`binary.LittleEndian`). -/
def leNat : List Nat → Nat
  | [] => 0
  | b :: l => b + 256 * leNat l

/-- Big-endian value of a byte list (`binary.BigEndian`). -/
def beNat (l : List Nat) : Nat := l.foldl (fun a b => 256 * a + b) 0

/-- Two's-complement wrap of an integer into the `int64` range
`[-2^63, 2^63)`; Go `int64` arithmetic (such as `header.Size - 36`) computes
modulo `2^64` in this range. -/
def wrap64 (x : Int) : Int := (x + 2 ^ 63) % 2 ^ 64 - 2 ^ 63

/-- Reinterpret the low 64 bits of an unsigned value as Go `int64`
(two's complement). -/
def toInt64 (u : Nat) : Int :=
  if u % 2 ^ 64 < 2 ^ 63 then ((u % 2 ^ 64 : Nat) : Int)
  else ((u % 2 ^ 64 : Nat) : Int) - 2 ^ 64

/-- `strings.TrimRight(s, string(0))`: drop the maximal run of zero bytes from
the right end. -/
def trimRightZeros (l : List Nat) : List Nat :=
  (l.reverse.dropWhile (fun b => b = 0)).reverse

/-- The bytes of the ASCII tag `"SPLICE"`. -/
def SPLICE : List Nat := [83, 80, 76, 73, 67, 69]

/-- One instrument lane, as in `decoder.go` (`Track`): `ID uint32`,
`Instrument string` (raw bytes), `Steps []byte` (16 bytes). -/
structure Track where
  id : Nat
  instrument : List Nat
  steps : List Nat
deriving DecidableEq

/-- The decoded file, as in `decoder.go` (`Pattern`): `Version string`,
`Tempo float32` (kept as its little-endian bit pattern), `Tracks []Track`. -/
structure Pattern where
  version : List Nat
  tempo : Nat
  tracks : List Track
deriving DecidableEq

/-- The track-record loop of `Decoder.Decode`, on the bounded payload region.
Per iteration: 4-byte little-endian `id` (`io.EOF` here ends the loop
normally; any other error is fatal), 1-byte `name_len`, `name_len` instrument
bytes, 16 step bytes; errors of the last three reads are latched by
`errReader` and checked once, so the first of them is returned.  Returns the
result together with the unread rest of the region.  `fuel` only bounds the
recursion; every successful iteration consumes at least 21 bytes, so any
`fuel > s.length` is enough and the `0` case is never reached. -/
def parseTracksAux : Nat → List Nat → Except DecodeErr (List Track) × List Nat
  | 0, s => (.ok [], s)
  | fuel + 1, s =>
    match readFullR 4 s with
    | (.error .eof, rem) => (.ok [], rem)
    | (.error e, rem) => (.error e, rem)
    | (.ok idb, s1) =>
      match readFullR 1 s1 with
      | (.error e, rem) => (.error e, rem)
      | (.ok lenb, s2) =>
        match readFullR (lenb.headD 0) s2 with
        | (.error e, rem) => (.error e, rem)
        | (.ok instr, s3) =>
          match readFullR 16 s3 with
          | (.error e, rem) => (.error e, rem)
          | (.ok stepsB, s4) =>
            match parseTracksAux fuel s4 with
            | (.error e, rem) => (.error e, rem)
            | (.ok ts, rem) =>
              (.ok ({ id := leNat idb, instrument := instr, steps := stepsB } :: ts), rem)

/-- The track-record loop with sufficient fuel. -/
def parseTracksR (s : List Nat) : Except DecodeErr (List Track) × List Nat :=
  parseTracksAux (s.length + 1) s

/-- `Decoder.Decode`, also returning the number of bytes consumed from the
underlying stream.  Header (46 bytes: 6-byte tag, big-endian `int64` size,
32-byte version slot) and 4-byte tempo are read first; a read error has
priority over the tag check; then the version slot is right-trimmed of zero
bytes, and the track loop runs on the stream limited to `Size - 36` bytes —
a subtraction performed in `int64`, so it wraps for `Size < -2^63 + 36`
(`io.LimitReader`; a nonpositive limit yields an immediately-empty region). -/
def decodeR (s : List Nat) : Except DecodeErr Pattern × Nat :=
  match readFullR 46 s with
  | (.error e, rem) => (.error e, s.length - rem.length)
  | (.ok hdr, s1) =>
    match readFullR 4 s1 with
    | (.error e, rem) => (.error e, s.length - rem.length)
    | (.ok tempoB, s2) =>
      if hdr.take 6 = SPLICE then
        let size := toInt64 (beNat ((hdr.drop 6).take 8))
        let lim : Int := wrap64 (size - 36)
        let region := if lim ≤ 0 then [] else s2.take lim.toNat
        match parseTracksR region with
        | (.error e, rem) => (.error e, 50 + (region.length - rem.length))
        | (.ok ts, rem) =>
          (.ok { version := trimRightZeros (hdr.drop 14), tempo := leNat tempoB,
                 tracks := ts }, 50 + (region.length - rem.length))
      else (.error .invalidHeader, 50)

/-- `Decoder.Decode`: result only. -/
def decode (s : List Nat) : Except DecodeErr Pattern := (decodeR s).1

/-- Number of bytes `Decoder.Decode` consumes from the underlying stream. -/
def decodeConsumed (s : List Nat) : Nat := (decodeR s).2

/-- `w`-byte little-endian encoding of a value. -/
def encLE : Nat → Nat → List Nat
  | 0, _ => []
  | w + 1, v => v % 256 :: encLE w (v / 256)

/-- `w`-byte big-endian encoding of a value. -/
def encBE : Nat → Nat → List Nat
  | 0, _ => []
  | w + 1, v => v / 256 ^ w % 256 :: encBE w v

/-- Wire encoding of one track record: 4-byte little-endian id, 1-byte name
length, the instrument bytes, the 16 step bytes. -/
def encTrack (t : Track) : List Nat :=
  encLE 4 t.id ++ [t.instrument.length] ++ t.instrument ++ t.steps

/-- Wire encoding of a sequence of track records, back to back. -/
def encTracks : List Track → List Nat
  | [] => []
  | t :: ts => encTrack t ++ encTracks ts

/-- A track whose fields fit the wire format: a 32-bit id, an instrument name
of at most 255 bytes, exactly 16 step bytes. -/
def WFTrack (t : Track) : Prop :=
  t.id < 2 ^ 32 ∧ t.instrument.length ≤ 255 ∧ t.steps.length = 16

instance (t : Track) : Decidable (WFTrack t) := by unfold WFTrack; infer_instance

/-- A nonempty byte fragment too short to complete a track record: fewer than
the 4 id bytes plus 1 length byte plus the declared instrument length (its
fifth byte) plus the 16 step bytes.  (When the fragment is shorter than 5
bytes the `headD` term reads as 0 and the bound holds trivially, matching a
record cut inside the id or at the missing length byte.) -/
def IncompleteRec (p : List Nat) : Prop :=
  p ≠ [] ∧ p.length < 21 + (p.drop 4).headD 0

instance (p : List Nat) : Decidable (IncompleteRec p) := by
  unfold IncompleteRec; infer_instance

/-! ### Basic facts about the reads and the wire encodings -/

theorem wrap64_eq_self {x : Int} (h1 : -2 ^ 63 ≤ x) (h2 : x < 2 ^ 63) :
    wrap64 x = x := by
  unfold wrap64
  rw [Int.emod_eq_of_lt (by omega) (by omega)]
  ring

theorem toInt64_lt (u : Nat) : toInt64 u < 2 ^ 63 := by
  unfold toInt64
  split_ifs with h
  · exact_mod_cast h
  · have hm : u % 2 ^ 64 < 2 ^ 64 := Nat.mod_lt u (by norm_num)
    have hm2 : ((u % 2 ^ 64 : Nat) : Int) < 2 ^ 64 := by exact_mod_cast hm
    omega

theorem toInt64_ge (u : Nat) : -2 ^ 63 ≤ toInt64 u := by
  unfold toInt64
  split_ifs with h
  · have h0 : (0 : Int) ≤ ((u % 2 ^ 64 : Nat) : Int) := Int.ofNat_nonneg _
    omega
  · have h1 : 2 ^ 63 ≤ u % 2 ^ 64 := Nat.le_of_not_lt h
    have h2 : ((2 : Int) ^ 63) ≤ ((u % 2 ^ 64 : Nat) : Int) := by exact_mod_cast h1
    omega

theorem toInt64_eq_of_lt {u : Nat} (h : u < 2 ^ 63) : toInt64 u = (u : Int) := by
  unfold toInt64
  rw [Nat.mod_eq_of_lt (lt_trans h (by norm_num))]
  rw [if_pos h]

theorem readFullR_exact {n : Nat} (a b : List Nat) (h : a.length = n) :
    readFullR n (a ++ b) = (.ok a, b) := by
  unfold readFullR
  rw [if_pos (by simp [List.length_append]; omega)]
  rw [List.take_left' h, List.drop_left' h]

theorem readFullR_ok_of_le {n : Nat} {s : List Nat} (h : n ≤ s.length) :
    readFullR n s = (.ok (s.take n), s.drop n) := by
  unfold readFullR
  rw [if_pos h]

theorem readFullR_ok {n : Nat} {s b r : List Nat}
    (h : readFullR n s = (.ok b, r)) :
    b = s.take n ∧ r = s.drop n ∧ n ≤ s.length := by
  unfold readFullR at h
  split_ifs at h with h1 h2
  · injection h with he hr
    injection he with hb
    exact ⟨hb.symm, hr.symm, h1⟩
  · injection h with he hr
    exact Except.noConfusion he
  · injection h with he hr
    exact Except.noConfusion he

theorem readFullR_error {n : Nat} {s : List Nat} {e : DecodeErr} {r : List Nat}
    (h : readFullR n s = (.error e, r)) :
    r = [] ∧ e ≠ DecodeErr.invalidHeader ∧ (e = DecodeErr.eof → s = []) := by
  unfold readFullR at h
  split_ifs at h with h1 h2
  · injection h with he hr
    exact Except.noConfusion he
  · injection h with he hr
    injection he with he
    subst he; subst hr
    have hs : s = [] := List.length_eq_zero.mp h2
    exact ⟨hs, by decide, fun _ => hs⟩
  · injection h with he hr
    injection he with he
    subst he; subst hr
    exact ⟨rfl, by decide, fun hc => DecodeErr.noConfusion hc⟩

theorem encLE_length (w v : Nat) : (encLE w v).length = w := by
  induction w generalizing v with
  | zero => rfl
  | succ w ih => simp [encLE, ih]

theorem encBE_length (w v : Nat) : (encBE w v).length = w := by
  induction w with
  | zero => rfl
  | succ w ih => simp [encBE, ih]

theorem leNat_encLE (w v : Nat) : leNat (encLE w v) = v % 256 ^ w := by
  induction w generalizing v with
  | zero => simp [encLE, leNat, Nat.mod_one]
  | succ w ih =>
    rw [encLE, leNat, ih, pow_succ', Nat.mod_mul]

theorem beNat_shift (a : Nat) (l : List Nat) :
    l.foldl (fun x y => 256 * x + y) a = a * 256 ^ l.length + beNat l := by
  induction l generalizing a with
  | nil => simp [beNat]
  | cons b l ih =>
    have hb : beNat (b :: l) = b * 256 ^ l.length + beNat l := by
      show l.foldl _ (256 * 0 + b) = _
      rw [ih]; ring
    calc (b :: l).foldl (fun x y => 256 * x + y) a
        = l.foldl (fun x y => 256 * x + y) (256 * a + b) := rfl
      _ = (256 * a + b) * 256 ^ l.length + beNat l := ih _
      _ = a * 256 ^ (b :: l).length + beNat (b :: l) := by
          rw [hb, List.length_cons]; ring

theorem beNat_cons (b : Nat) (l : List Nat) :
    beNat (b :: l) = b * 256 ^ l.length + beNat l := by
  show l.foldl _ (256 * 0 + b) = _
  rw [beNat_shift]
  ring

theorem beNat_encBE (w v : Nat) : beNat (encBE w v) = v % 256 ^ w := by
  induction w with
  | zero => simp [encBE, beNat, Nat.mod_one]
  | succ w ih =>
    rw [encBE, beNat_cons, encBE_length, ih, Nat.mod_pow_succ]
    ring

/-! ### The track loop and the full decode, decomposed -/


theorem parseTracksAux_snd : ∀ (fuel : Nat) (s : List Nat), s.length < fuel →
    (parseTracksAux fuel s).2 = [] := by
  intro fuel
  induction fuel with
  | zero => intro s h; omega
  | succ fuel ih =>
    intro s h
    simp only [parseTracksAux]
    split
    · next rem heq => exact (readFullR_error heq).1
    · next e rem hne heq => exact (readFullR_error heq).1
    · next idb s1 heq4 =>
      obtain ⟨-, hs1, hl1⟩ := readFullR_ok heq4
      split
      · next e rem heq => exact (readFullR_error heq).1
      · next lenb s2 heq1 =>
        obtain ⟨-, hs2, hl2⟩ := readFullR_ok heq1
        split
        · next e rem heq => exact (readFullR_error heq).1
        · next instr s3 heq2 =>
          obtain ⟨-, hs3, hl3⟩ := readFullR_ok heq2
          split
          · next e rem heq => exact (readFullR_error heq).1
          · next stepsB s4 heq3 =>
            obtain ⟨-, hs4, hl4⟩ := readFullR_ok heq3
            have hlen : s4.length < fuel := by
              subst hs1 hs2 hs3 hs4
              simp only [List.length_drop] at hl1 hl2 hl3 hl4 ⊢
              omega
            have hrec := ih s4 hlen
            split
            · next e rem heq => rw [heq] at hrec; exact hrec
            · next ts rem heq => rw [heq] at hrec; exact hrec



theorem parseTracksAux_fuel : ∀ (a : Nat) (s : List Nat) (b : Nat),
    s.length < a → s.length < b →
    parseTracksAux a s = parseTracksAux b s := by
  intro a
  induction a with
  | zero => intro s b h1 h2; omega
  | succ a ih =>
    intro s b h1 h2
    obtain ⟨b', rfl⟩ : ∃ b', b = b' + 1 := ⟨b - 1, by omega⟩
    simp only [parseTracksAux]
    split
    · next rem heq => rfl
    · next e rem hne heq => rfl
    · next idb s1 heq4 =>
      obtain ⟨-, hs1, hl1⟩ := readFullR_ok heq4
      split
      · next e rem heq => rfl
      · next lenb s2 heq1 =>
        obtain ⟨-, hs2, hl2⟩ := readFullR_ok heq1
        split
        · next e rem heq => rfl
        · next instr s3 heq2 =>
          obtain ⟨-, hs3, hl3⟩ := readFullR_ok heq2
          split
          · next e rem heq => rfl
          · next stepsB s4 heq3 =>
            obtain ⟨-, hs4, hl4⟩ := readFullR_ok heq3
            have hb : s4.length < a ∧ s4.length < b' := by
              subst hs1 hs2 hs3 hs4
              simp only [List.length_drop] at hl1 hl2 hl3 hl4 ⊢
              omega
            rw [ih s4 b' hb.1 hb.2]



theorem parseTracksAux_succ (fuel : Nat) (s : List Nat) :
    parseTracksAux (fuel + 1) s =
      match readFullR 4 s with
      | (.error .eof, rem) => (.ok [], rem)
      | (.error e, rem) => (.error e, rem)
      | (.ok idb, s1) =>
        match readFullR 1 s1 with
        | (.error e, rem) => (.error e, rem)
        | (.ok lenb, s2) =>
          match readFullR (lenb.headD 0) s2 with
          | (.error e, rem) => (.error e, rem)
          | (.ok instr, s3) =>
            match readFullR 16 s3 with
            | (.error e, rem) => (.error e, rem)
            | (.ok stepsB, s4) =>
              match parseTracksAux fuel s4 with
              | (.error e, rem) => (.error e, rem)
              | (.ok ts, rem) =>
                (.ok ({ id := leNat idb, instrument := instr, steps := stepsB } :: ts), rem) := rfl

theorem parseTracksR_cons (t : Track) (rest : List Nat) (hwf : WFTrack t) :
    parseTracksR (encTrack t ++ rest)
      = ((parseTracksR rest).1.map (fun us => t :: us), (parseTracksR rest).2) := by
  obtain ⟨hid, hinstr, hsteps⟩ := hwf
  have hassoc : encTrack t ++ rest
      = encLE 4 t.id ++ ([t.instrument.length] ++ (t.instrument ++ (t.steps ++ rest))) := by
    simp [encTrack, List.append_assoc]
  unfold parseTracksR
  rw [hassoc]
  rw [parseTracksAux_succ]
  have e1 := readFullR_exact (n := 4) (encLE 4 t.id)
    ([t.instrument.length] ++ (t.instrument ++ (t.steps ++ rest))) (encLE_length 4 t.id)
  simp only [e1]
  have e2 := readFullR_exact (n := 1) [t.instrument.length]
    (t.instrument ++ (t.steps ++ rest)) rfl
  simp only [e2, List.headD_cons]
  have e3 := readFullR_exact (n := t.instrument.length) t.instrument
    (t.steps ++ rest) rfl
  simp only [e3]
  have e4 := readFullR_exact (n := 16) t.steps rest hsteps
  simp only [e4]
  have hfuel : parseTracksAux
      ((encLE 4 t.id ++ ([t.instrument.length] ++ (t.instrument ++ (t.steps ++ rest)))).length)
      rest = parseTracksAux (rest.length + 1) rest := by
    apply parseTracksAux_fuel
    · simp only [List.length_append, encLE_length, List.length_cons, List.length_nil]
      omega
    · omega
  rw [hfuel]
  have hidv : leNat (encLE 4 t.id) = t.id := by
    rw [leNat_encLE]
    exact Nat.mod_eq_of_lt (lt_of_lt_of_le hid (by norm_num))
  rw [hidv]
  rcases hp : parseTracksAux (rest.length + 1) rest with ⟨rp, rem⟩
  cases rp with
  | error e => rfl
  | ok us => rfl



theorem parseTracksR_append (ts : List Track) (rest : List Nat)
    (hwf : ∀ t ∈ ts, WFTrack t) :
    parseTracksR (encTracks ts ++ rest)
      = ((parseTracksR rest).1.map (fun us => ts ++ us), (parseTracksR rest).2) := by
  induction ts with
  | nil =>
    simp only [encTracks, List.nil_append]
    rcases h : parseTracksR rest with ⟨rp, rem⟩
    cases rp <;> rfl
  | cons t ts ih =>
    have hassoc : encTracks (t :: ts) ++ rest = encTrack t ++ (encTracks ts ++ rest) := by
      simp [encTracks, List.append_assoc]
    rw [hassoc, parseTracksR_cons t _ (hwf t (by simp)),
        ih (fun u hu => hwf u (by simp [hu]))]
    rcases h : parseTracksR rest with ⟨rp, rem⟩
    cases rp <;> rfl

theorem parseTracksR_snd (s : List Nat) : (parseTracksR s).2 = [] :=
  parseTracksAux_snd (s.length + 1) s (by omega)

theorem parseTracksR_incomplete (p : List Nat) (hp : IncompleteRec p) :
    ∃ e, parseTracksR p = (.error e, []) ∧ e ≠ DecodeErr.invalidHeader := by
  obtain ⟨hne, hshort⟩ := hp
  unfold parseTracksR
  rw [parseTracksAux_succ]
  split
  · next rem heq =>
    obtain ⟨-, -, heof⟩ := readFullR_error heq
    exact absurd (heof rfl) hne
  · next e rem hne2 heq =>
    obtain ⟨hrem, hinv, -⟩ := readFullR_error heq
    subst hrem
    exact ⟨e, rfl, hinv⟩
  · next idb s1 heq4 =>
    obtain ⟨-, hs1, hl1⟩ := readFullR_ok heq4
    split
    · next e rem heq =>
      obtain ⟨hrem, hinv, -⟩ := readFullR_error heq
      subst hrem
      exact ⟨e, rfl, hinv⟩
    · next lenb s2 heq1 =>
      obtain ⟨hb2, hs2, hl2⟩ := readFullR_ok heq1
      have hheadD : lenb.headD 0 = (p.drop 4).headD 0 := by
        subst hb2 hs1
        rcases p.drop 4 with - | ⟨a, tl⟩ <;> rfl
      split
      · next e rem heq =>
        obtain ⟨hrem, hinv, -⟩ := readFullR_error heq
        subst hrem
        exact ⟨e, rfl, hinv⟩
      · next instr s3 heq2 =>
        obtain ⟨-, hs3, hl3⟩ := readFullR_ok heq2
        split
        · next e rem heq =>
          obtain ⟨hrem, hinv, -⟩ := readFullR_error heq
          subst hrem
          exact ⟨e, rfl, hinv⟩
        · next stepsB s4 heq3 =>
          obtain ⟨-, -, hl4⟩ := readFullR_ok heq3
          exfalso
          rw [hheadD] at hl3
          subst hs1 hs2 hs3
          simp only [List.length_drop] at hl1 hl2 hl3 hl4
          omega



theorem decodeR_mk (size : Nat) (vslot tmp payload extra : List Nat)
    (hv : vslot.length = 32) (ht : tmp.length = 4)
    (hsize : size = 36 + payload.length) (hbound : size < 2 ^ 63) :
    decodeR (SPLICE ++ encBE 8 size ++ vslot ++ tmp ++ payload ++ extra)
      = ((parseTracksR payload).1.map
           (fun ts => { version := trimRightZeros vslot, tempo := leNat tmp,
                        tracks := ts }),
         50 + payload.length) := by
  subst hsize
  have hassoc : SPLICE ++ encBE 8 (36 + payload.length) ++ vslot ++ tmp ++ payload ++ extra
      = (SPLICE ++ encBE 8 (36 + payload.length) ++ vslot) ++ (tmp ++ (payload ++ extra)) := by
    simp [List.append_assoc]
  have hhdr : (SPLICE ++ encBE 8 (36 + payload.length) ++ vslot).length = 46 := by
    simp [SPLICE, encBE_length, hv]
  have e1 := readFullR_exact (SPLICE ++ encBE 8 (36 + payload.length) ++ vslot)
    (tmp ++ (payload ++ extra)) hhdr
  have e2 := readFullR_exact tmp (payload ++ extra) ht
  have htag : (SPLICE ++ encBE 8 (36 + payload.length) ++ vslot).take 6 = SPLICE := by
    rw [List.append_assoc, List.take_left' (show SPLICE.length = 6 from rfl)]
  have hdrop6 : (SPLICE ++ encBE 8 (36 + payload.length) ++ vslot).drop 6
      = encBE 8 (36 + payload.length) ++ vslot := by
    rw [List.append_assoc, List.drop_left' (show SPLICE.length = 6 from rfl)]
  have htake8 : (encBE 8 (36 + payload.length) ++ vslot).take 8
      = encBE 8 (36 + payload.length) :=
    List.take_left' (encBE_length 8 _)
  have hsz : toInt64 (beNat (encBE 8 (36 + payload.length)))
      = ((36 + payload.length : Nat) : Int) := by
    rw [beNat_encBE, Nat.mod_eq_of_lt (lt_trans hbound (by norm_num))]
    exact toInt64_eq_of_lt hbound
  have hdrop14 : (SPLICE ++ encBE 8 (36 + payload.length) ++ vslot).drop 14 = vslot := by
    rw [List.drop_left'
      (show (SPLICE ++ encBE 8 (36 + payload.length)).length = 14 from by
        simp [SPLICE, encBE_length])]
  have hlim : ((36 + payload.length : Nat) : Int) - 36 = (payload.length : Int) := by
    push_cast; ring
  have hplt : (payload.length : Int) < 2 ^ 63 := by
    exact_mod_cast (show payload.length < 2 ^ 63 by omega)
  have hwrap : wrap64 ((payload.length : Int)) = (payload.length : Int) :=
    wrap64_eq_self (by omega) hplt
  have hregion : (if ((payload.length : Int) ≤ 0) then ([] : List Nat)
      else (payload ++ extra).take ((payload.length : Int)).toNat) = payload := by
    rcases payload with - | ⟨b, pb⟩
    · simp
    · rw [if_neg (by simp)]
      rw [Int.toNat_ofNat, List.take_left]
  unfold decodeR
  rw [hassoc]
  simp only [e1, e2, htag, eq_self_iff_true, if_true, hdrop6, htake8, hsz, hdrop14,
    hlim, hwrap, hregion]
  have hsnd := parseTracksR_snd payload
  rcases hp : parseTracksR payload with ⟨rp, rem⟩
  rw [hp] at hsnd
  subst hsnd
  cases rp <;> rfl


/-! ### The claims -/

/-- C1: for every stream with tag "SPLICE" whose bounded payload region
(`total_size - 36` bytes) contains exactly the well-formed track records
`ts` packed back-to-back with no trailing partial record, decode succeeds
and returns a `Pattern` with exactly those tracks, in on-disk order, each
carrying the decoded id, the instrument bytes, and the 16 step bytes
(regardless of any trailing bytes past the declared region). -/
theorem decode_exact_records (ts : List Track) (vslot tmp extra : List Nat)
    (hwf : ∀ t ∈ ts, WFTrack t) (hv : vslot.length = 32) (ht : tmp.length = 4)
    (hbound : 36 + (encTracks ts).length < 2 ^ 63) :
    decode (SPLICE ++ encBE 8 (36 + (encTracks ts).length) ++ vslot ++ tmp
        ++ encTracks ts ++ extra)
      = .ok { version := trimRightZeros vslot, tempo := leNat tmp, tracks := ts } := by
  unfold decode
  rw [decodeR_mk (36 + (encTracks ts).length) vslot tmp (encTracks ts) extra hv ht rfl
    hbound]
  have happ := parseTracksR_append ts [] hwf
  rw [List.append_nil] at happ
  have h0 : parseTracksR [] = (.ok [], []) := rfl
  rw [h0] at happ
  rw [happ]
  simp [Except.map]

/-- C1 witness: the spec scenario — version "0.1", tempo 120.0 (bits
0x42F00000), one track id 1, instrument "kick", steps active at 0, 4, 8, 12;
`total_size` 61 = 36 + 25 payload bytes. -/
theorem decode_exact_records_witness :
    decode (SPLICE ++ encBE 8 61 ++ ([48, 46, 49] ++ List.replicate 29 0)
        ++ [0, 0, 240, 66]
        ++ encTracks [{ id := 1, instrument := [107, 105, 99, 107],
                        steps := [1, 0, 0, 0, 1, 0, 0, 0, 1, 0, 0, 0, 1, 0, 0, 0] }]
        ++ [])
      = .ok { version := [48, 46, 49], tempo := 1123024896,
              tracks := [{ id := 1, instrument := [107, 105, 99, 107],
                           steps := [1, 0, 0, 0, 1, 0, 0, 0, 1, 0, 0, 0, 1, 0, 0, 0] }] } :=
  decode_exact_records
    [{ id := 1, instrument := [107, 105, 99, 107],
       steps := [1, 0, 0, 0, 1, 0, 0, 0, 1, 0, 0, 0, 1, 0, 0, 0] }]
    ([48, 46, 49] ++ List.replicate 29 0) [0, 0, 240, 66] []
    (by decide) (by decide) (by decide) (by decide)

/-- C2: for every stream whose 46-byte header and tempo read successfully
with tag "SPLICE" and whose declared `total_size` is at least 36, if the
stream holds at least `total_size - 36` bytes past the tempo field then
decode consumes exactly `50 + (total_size - 36)` bytes: the header, the
tempo, and exactly the `total_size - 36` payload bytes — no byte past that
boundary is read, no matter how many trailing bytes (even well-formed-looking
track records) follow. -/
theorem decode_consumes_exact (s : List Nat)
    (hlen : 50 ≤ s.length) (htag : s.take 6 = SPLICE)
    (hsz : 36 ≤ toInt64 (beNat ((s.drop 6).take 8)))
    (havail : toInt64 (beNat ((s.drop 6).take 8)) - 36 ≤ (s.length : Int) - 50) :
    (decodeConsumed s : Int) = 50 + (toInt64 (beNat ((s.drop 6).take 8)) - 36) := by
  have e46 : readFullR 46 s = (.ok (s.take 46), s.drop 46) :=
    readFullR_ok_of_le (by omega)
  have e4 : readFullR 4 (s.drop 46) = (.ok ((s.drop 46).take 4), (s.drop 46).drop 4) :=
    readFullR_ok_of_le (by rw [List.length_drop]; omega)
  have htag46 : (s.take 46).take 6 = SPLICE := by
    rw [List.take_take]
    norm_num
    exact htag
  have hsz46 : ((s.take 46).drop 6).take 8 = (s.drop 6).take 8 := by
    rw [List.drop_take, List.take_take]
    norm_num
  have hw : wrap64 (toInt64 (beNat ((s.drop 6).take 8)) - 36)
      = toInt64 (beNat ((s.drop 6).take 8)) - 36 := by
    have h1 := toInt64_ge (beNat ((s.drop 6).take 8))
    have h2 := toInt64_lt (beNat ((s.drop 6).take 8))
    exact wrap64_eq_self (by omega) (by omega)
  unfold decodeConsumed decodeR
  simp only [e46, e4, htag46, eq_self_iff_true, if_true, hsz46, hw]
  by_cases hc : toInt64 (beNat ((s.drop 6).take 8)) - 36 ≤ 0
  · rw [if_pos hc]
    have h0 : parseTracksR [] = (.ok [], []) := rfl
    rw [h0]
    simp only [List.length_nil]
    omega
  · rw [if_neg hc]
    have hlt : (toInt64 (beNat ((s.drop 6).take 8)) - 36).toNat
        ≤ ((s.drop 46).drop 4).length := by
      simp only [List.length_drop]
      omega
    have hreglen : (((s.drop 46).drop 4).take
        (toInt64 (beNat ((s.drop 6).take 8)) - 36).toNat).length
        = (toInt64 (beNat ((s.drop 6).take 8)) - 36).toNat := by
      rw [List.length_take]
      omega
    have hsnd := parseTracksR_snd
      (((s.drop 46).drop 4).take (toInt64 (beNat ((s.drop 6).take 8)) - 36).toNat)
    rcases hres : parseTracksR
        (((s.drop 46).drop 4).take (toInt64 (beNat ((s.drop 6).take 8)) - 36).toNat)
      with ⟨rp, rem⟩
    rw [hres] at hsnd
    subst hsnd
    cases rp with
    | error e =>
      simp only [List.length_nil, hreglen]
      omega
    | ok ts =>
      simp only [List.length_nil, hreglen]
      omega

/-- C2 witness: tag "SPLICE", `total_size` 38, two payload bytes, three
trailing junk bytes; decode consumes exactly 52 = 50 + (38 - 36) bytes. -/
theorem decode_consumes_exact_witness :
    (decodeConsumed (SPLICE ++ encBE 8 38 ++ List.replicate 32 0
        ++ [0, 0, 240, 66] ++ [9, 9] ++ [1, 2, 3]) : Int) = 52 :=
  decode_consumes_exact
    (SPLICE ++ encBE 8 38 ++ List.replicate 32 0 ++ [0, 0, 240, 66] ++ [9, 9] ++ [1, 2, 3])
    (by decide) (by decide) (by decide) (by decide)

/-- C3: for every stream whose 46-byte header and 4-byte tempo field read
without a lower-level read error but whose first 6 bytes are not the ASCII
tag "SPLICE", decode fails with the `InvalidHeader` error, regardless of the
remaining bytes of the stream. -/
theorem decode_bad_tag (s : List Nat) (hlen : 50 ≤ s.length)
    (htag : s.take 6 ≠ SPLICE) :
    decode s = .error .invalidHeader := by
  have e46 : readFullR 46 s = (.ok (s.take 46), s.drop 46) :=
    readFullR_ok_of_le (by omega)
  have e4 : readFullR 4 (s.drop 46) = (.ok ((s.drop 46).take 4), (s.drop 46).drop 4) :=
    readFullR_ok_of_le (by rw [List.length_drop]; omega)
  have htag46 : (s.take 46).take 6 = s.take 6 := by
    rw [List.take_take]
    norm_num
  unfold decode decodeR
  simp only [e46, e4, htag46]
  rw [if_neg htag]

/-- C3 witness: a 50-byte stream whose tag reads "ABCDEF". -/
theorem decode_bad_tag_witness :
    decode ([65, 66, 67, 68, 69, 70] ++ List.replicate 44 0)
      = .error .invalidHeader :=
  decode_bad_tag ([65, 66, 67, 68, 69, 70] ++ List.replicate 44 0)
    (by decide) (by decide)

/-- C4: for every stream where a read error occurs while reading the 46-byte
header or the 4-byte tempo field (here: the stream is shorter than the 50
bytes those reads need), decode returns that read error and not
`InvalidHeader` — even when the bytes read so far would also fail the
"SPLICE" comparison, since the tag check only happens after both reads. -/
theorem decode_short_header_error (s : List Nat) (hlen : s.length < 50) :
    ∃ e, decode s = .error e ∧ e ≠ DecodeErr.invalidHeader := by
  unfold decode decodeR
  split
  · next e rem heq =>
    exact ⟨e, rfl, (readFullR_error heq).2.1⟩
  · next hdr s1 heq46 =>
    obtain ⟨-, hs1, hl1⟩ := readFullR_ok heq46
    split
    · next e rem heq =>
      exact ⟨e, rfl, (readFullR_error heq).2.1⟩
    · next tempoB s2 heq4 =>
      obtain ⟨-, -, hl4⟩ := readFullR_ok heq4
      exfalso
      subst hs1
      rw [List.length_drop] at hl4
      omega

/-- C4 witness: a 3-byte stream (whose bytes also do not start "SPLICE"):
decode returns a read error different from `InvalidHeader`. -/
theorem decode_short_header_error_witness :
    ∃ e, decode [1, 2, 3] = .error e ∧ e ≠ DecodeErr.invalidHeader :=
  decode_short_header_error [1, 2, 3] (by decide)

/-- C9: decode is deterministic — two decode calls on (copies of) the same
byte sequence yield the same result, and on success the returned `Pattern`
values agree on version, tempo, and the full ordered track sequence. -/
theorem decode_deterministic (a b : List Nat) (h : a = b) :
    decode a = decode b ∧
      ∀ p q : Pattern, decode a = .ok p → decode b = .ok q →
        p.version = q.version ∧ p.tempo = q.tempo ∧ p.tracks = q.tracks := by
  subst h
  refine ⟨rfl, ?_⟩
  intro p q hp hq
  rw [hp] at hq
  injection hq with hq
  subst hq
  exact ⟨rfl, rfl, rfl⟩

/-- C9 witness: two decodes of the byte sequence `[0]` agree. -/
theorem decode_deterministic_witness : decode [0] = decode [0] :=
  (decode_deterministic [0] [0] rfl).1

theorem dropWhile_zero_append (a c : List Nat) (ha : ∀ x ∈ a, x = 0) :
    (a ++ c).dropWhile (fun b => b = 0) = c.dropWhile (fun b => b = 0) := by
  induction a with
  | nil => simp
  | cons x xs ih =>
    rw [List.cons_append, List.dropWhile_cons, if_pos]
    · exact ih (fun y hy => ha y (List.mem_cons_of_mem x hy))
    · simp [ha x (List.mem_cons_self x xs)]

theorem dropWhile_zero_of_head (l : List Nat) (h : l.head? ≠ some 0) :
    l.dropWhile (fun b => b = 0) = l := by
  cases l with
  | nil => rfl
  | cons x xs =>
    have hx : x ≠ 0 := by simpa using h
    rw [List.dropWhile_cons, if_neg (by simp [hx])]

/-- `strings.TrimRight(_, string(0))` of a text followed by zero padding is
the text, provided the text itself does not end in a zero byte. -/
theorem trimRightZeros_append (core pad : List Nat) (hpad : ∀ b ∈ pad, b = 0)
    (hcore : core.getLast? ≠ some 0) :
    trimRightZeros (core ++ pad) = core := by
  unfold trimRightZeros
  rw [List.reverse_append]
  rw [dropWhile_zero_append _ _ (fun x hx => hpad x (List.mem_reverse.mp hx))]
  rw [dropWhile_zero_of_head _ (by rw [List.head?_reverse]; exact hcore)]
  rw [List.reverse_reverse]

/-- A nonempty fragment of fewer than four bytes makes the id read fail with
`io.ErrUnexpectedEOF`, which the track loop treats as fatal. -/
theorem parseTracksR_shortId (frag : List Nat) (h1 : frag ≠ [])
    (h2 : frag.length < 4) :
    parseTracksR frag = (.error .unexpectedEOF, []) := by
  unfold parseTracksR
  rw [parseTracksAux_succ]
  have e : readFullR 4 frag = (.error .unexpectedEOF, []) := by
    unfold readFullR
    rw [if_neg (by omega), if_neg (by simpa [List.length_eq_zero] using h1)]
  simp only [e]

/-- C5: for every stream whose bounded payload region ends in the middle of
a track record (complete records `ts` followed by a nonempty fragment `frag`
too short for the record it starts — fewer than `name_len` instrument bytes,
fewer than 16 step bytes, or only 1–3 bytes of the 4-byte id, or a missing
length byte), decode fails with a stream/I-O error (never `InvalidHeader`)
and does not return a `Pattern` with a silently shortened track list. -/
theorem decode_truncated_record (ts : List Track) (frag vslot tmp : List Nat)
    (hwf : ∀ t ∈ ts, WFTrack t) (hfrag : IncompleteRec frag)
    (hv : vslot.length = 32) (ht : tmp.length = 4)
    (hbound : 36 + (encTracks ts ++ frag).length < 2 ^ 63) :
    ∃ e, decode (SPLICE ++ encBE 8 (36 + (encTracks ts ++ frag).length) ++ vslot
        ++ tmp ++ (encTracks ts ++ frag))
      = .error e ∧ e ≠ DecodeErr.invalidHeader := by
  obtain ⟨e, he, hinv⟩ := parseTracksR_incomplete frag hfrag
  have happ := parseTracksR_append ts frag hwf
  rw [he] at happ
  have hmk := decodeR_mk (36 + (encTracks ts ++ frag).length) vslot tmp
    (encTracks ts ++ frag) [] hv ht rfl hbound
  rw [List.append_nil] at hmk
  unfold decode
  rw [hmk, happ]
  exact ⟨e, rfl, hinv⟩

/-- C5 witness: an empty record list followed by the single byte `5` — one
byte of a four-byte id — declared by `total_size` 37. -/
theorem decode_truncated_record_witness :
    ∃ e, decode (SPLICE ++ encBE 8 37 ++ List.replicate 32 0 ++ [0, 0, 240, 66]
        ++ [5])
      = .error e ∧ e ≠ DecodeErr.invalidHeader :=
  decode_truncated_record [] [5] (List.replicate 32 0) [0, 0, 240, 66]
    (by decide) (by decide) (by decide) (by decide) (by decide)

/-- C6: the 32-byte version slot is right-trimmed of zero bytes when the
`version` value is produced — the trim removes the whole trailing run of
zeros (continuing past the first zero encountered from the right) and stops
at the first nonzero byte; a slot holding a zero-free text followed by zero
padding decodes to exactly that text. -/
theorem decode_version_strip (core pad tmp : List Nat)
    (hpad : ∀ b ∈ pad, b = 0) (hcore : core.getLast? ≠ some 0)
    (hlen : core.length + pad.length = 32) (ht : tmp.length = 4) :
    decode (SPLICE ++ encBE 8 36 ++ (core ++ pad) ++ tmp)
      = .ok { version := core, tempo := leNat tmp, tracks := [] } := by
  have hv : (core ++ pad).length = 32 := by
    rw [List.length_append]
    exact hlen
  have hmk := decodeR_mk 36 (core ++ pad) tmp [] [] hv ht rfl (by norm_num)
  rw [List.append_nil, List.append_nil] at hmk
  unfold decode
  rw [hmk]
  have h0 : parseTracksR [] = (.ok [], []) := rfl
  rw [h0, trimRightZeros_append core pad hpad hcore]
  rfl

/-- C6 witness: the spec example — a 32-byte slot holding "0.808-alpha"
followed by 21 zero bytes decodes to version "0.808-alpha". -/
theorem decode_version_strip_witness :
    decode (SPLICE ++ encBE 8 36
        ++ ([48, 46, 56, 48, 56, 45, 97, 108, 112, 104, 97] ++ List.replicate 21 0)
        ++ [0, 0, 240, 66])
      = .ok { version := [48, 46, 56, 48, 56, 45, 97, 108, 112, 104, 97],
              tempo := 1123024896, tracks := [] } :=
  decode_version_strip [48, 46, 56, 48, 56, 45, 97, 108, 112, 104, 97]
    (List.replicate 21 0) [0, 0, 240, 66]
    (by decide) (by decide) (by decide) (by decide)

/-- C7: at the start of a track record, hitting the end of the bounded
region with zero bytes consumed (`frag = []`) ends the loop normally and
decode returns the `Pattern` assembled so far; an id read that ends after
1–3 bytes (`frag ≠ []`, fewer than 4 bytes left) is a fatal decode error
(`io.ErrUnexpectedEOF`); and if any later read of the record fails (the
fragment is incomplete in any way) decode returns a fatal stream error. -/
theorem decode_id_read_boundary (ts : List Track) (frag vslot tmp : List Nat)
    (hwf : ∀ t ∈ ts, WFTrack t)
    (hv : vslot.length = 32) (ht : tmp.length = 4)
    (hbound : 36 + (encTracks ts ++ frag).length < 2 ^ 63) :
    (frag = [] →
      decode (SPLICE ++ encBE 8 (36 + (encTracks ts ++ frag).length) ++ vslot
          ++ tmp ++ (encTracks ts ++ frag))
        = .ok { version := trimRightZeros vslot, tempo := leNat tmp, tracks := ts })
    ∧ (frag ≠ [] → frag.length < 4 →
      decode (SPLICE ++ encBE 8 (36 + (encTracks ts ++ frag).length) ++ vslot
          ++ tmp ++ (encTracks ts ++ frag))
        = .error DecodeErr.unexpectedEOF)
    ∧ (IncompleteRec frag →
      ∃ e, decode (SPLICE ++ encBE 8 (36 + (encTracks ts ++ frag).length) ++ vslot
          ++ tmp ++ (encTracks ts ++ frag))
        = .error e ∧ e ≠ DecodeErr.invalidHeader) := by
  have hmk := decodeR_mk (36 + (encTracks ts ++ frag).length) vslot tmp
    (encTracks ts ++ frag) [] hv ht rfl hbound
  rw [List.append_nil] at hmk
  have happ := parseTracksR_append ts frag hwf
  refine ⟨?_, ?_, ?_⟩
  · intro h
    subst h
    simp only [List.append_nil] at hmk happ ⊢
    have h0 : parseTracksR [] = (.ok [], []) := rfl
    rw [h0] at happ
    unfold decode
    rw [hmk, happ]
    simp [Except.map]
  · intro hne hfrag
    rw [parseTracksR_shortId frag hne hfrag] at happ
    unfold decode
    rw [hmk, happ]
    rfl
  · intro hinc
    obtain ⟨e, he, hinv⟩ := parseTracksR_incomplete frag hinc
    rw [he] at happ
    unfold decode
    rw [hmk, happ]
    exact ⟨e, rfl, hinv⟩

/-- C7 witness: one track followed by a two-byte fragment `[7, 7]`: the id
read ends after two of its four bytes and decode fails with
`io.ErrUnexpectedEOF`. -/
theorem decode_id_read_boundary_witness :
    decode (SPLICE ++ encBE 8 59
        ++ List.replicate 32 0 ++ [0, 0, 240, 66]
        ++ (encTracks [{ id := 9, instrument := [], steps := List.replicate 16 0 }]
            ++ [7, 7]))
      = .error DecodeErr.unexpectedEOF :=
  (decode_id_read_boundary [{ id := 9, instrument := [], steps := List.replicate 16 0 }]
    [7, 7] (List.replicate 32 0) [0, 0, 240, 66]
    (by decide) (by decide) (by decide) (by decide)).2.1 (by decide) (by decide)

/-- C8 counterexample: a 50-byte stream with tag "SPLICE" whose declared
`total_size` is 0, so `total_size - 36 = -36` is negative; the claim says
decode must fail with a stream/I-O error, but decode succeeds with an empty
track list (`io.LimitReader` with a negative limit is an immediately-empty
region). -/
theorem decode_negative_size_counterexample :
    toInt64 (beNat (((SPLICE ++ encBE 8 0 ++ List.replicate 32 0
        ++ [0, 0, 240, 66]).drop 6).take 8)) - 36 < 0
    ∧ decode (SPLICE ++ encBE 8 0 ++ List.replicate 32 0 ++ [0, 0, 240, 66])
      = .ok { version := [], tempo := 1123024896, tracks := [] } := by
  exact ⟨by decide, rfl⟩

/-- C8 (amended): for every stream whose header reads successfully with tag
"SPLICE" and whose declared `total_size` makes `total_size - 36` negative
without underflowing `int64` (that is, `-2^63 + 36 ≤ total_size < 36`),
decode does not fail: the negative limit makes the bounded payload region
empty and decode succeeds with the header's version and tempo and an empty
track list.  (For `total_size` below `-2^63 + 36` the `int64` subtraction
`header.Size - 36` wraps to a huge positive limit and the loop parses
whatever follows the tempo field instead.) -/
theorem decode_negative_size_empty (s : List Nat) (hlen : 50 ≤ s.length)
    (htag : s.take 6 = SPLICE)
    (hlo : -2 ^ 63 + 36 ≤ toInt64 (beNat ((s.drop 6).take 8)))
    (hsz : toInt64 (beNat ((s.drop 6).take 8)) < 36) :
    decode s = .ok { version := trimRightZeros ((s.drop 14).take 32),
                     tempo := leNat ((s.drop 46).take 4), tracks := [] } := by
  have e46 : readFullR 46 s = (.ok (s.take 46), s.drop 46) :=
    readFullR_ok_of_le (by omega)
  have e4 : readFullR 4 (s.drop 46) = (.ok ((s.drop 46).take 4), (s.drop 46).drop 4) :=
    readFullR_ok_of_le (by rw [List.length_drop]; omega)
  have htag46 : (s.take 46).take 6 = SPLICE := by
    rw [List.take_take]
    norm_num
    exact htag
  have hsz46 : ((s.take 46).drop 6).take 8 = (s.drop 6).take 8 := by
    rw [List.drop_take, List.take_take]
    norm_num
  have hver46 : (s.take 46).drop 14 = (s.drop 14).take 32 := by
    rw [List.drop_take]
  have hw : wrap64 (toInt64 (beNat ((s.drop 6).take 8)) - 36)
      = toInt64 (beNat ((s.drop 6).take 8)) - 36 := by
    have h2 := toInt64_lt (beNat ((s.drop 6).take 8))
    exact wrap64_eq_self (by omega) (by omega)
  unfold decode decodeR
  simp only [e46, e4, htag46, eq_self_iff_true, if_true, hsz46, hver46, hw]
  rw [if_pos (by omega)]
  have h0 : parseTracksR [] = (.ok [], []) := rfl
  rw [h0]

/-- C8 witness for the amended claim: tag "SPLICE", `total_size` 10, empty
version slot, tempo bits of 120.0: decode succeeds with no tracks. -/
theorem decode_negative_size_empty_witness :
    decode (SPLICE ++ encBE 8 10 ++ List.replicate 32 0 ++ [0, 0, 240, 66])
      = .ok { version := [], tempo := 1123024896, tracks := [] } :=
  decode_negative_size_empty
    (SPLICE ++ encBE 8 10 ++ List.replicate 32 0 ++ [0, 0, 240, 66])
    (by decide) (by decide) (by decide) (by decide)

/-- C10: each returned track's steps are exactly the 16 raw bytes read from
the stream, preserved unmodified (nonzero values are not normalized to a
single "on" value), and a payload with zero records yields a `Pattern` whose
track sequence is present and empty. -/
theorem decode_steps_raw (tid : Nat) (instr stepsB vslot tmp : List Nat)
    (hid : tid < 2 ^ 32) (hinstr : instr.length ≤ 255) (hsteps : stepsB.length = 16)
    (hv : vslot.length = 32) (ht : tmp.length = 4) :
    (decode (SPLICE
        ++ encBE 8 (36 + (encTracks [{ id := tid, instrument := instr,
                                       steps := stepsB }]).length) ++ vslot ++ tmp
        ++ encTracks [{ id := tid, instrument := instr, steps := stepsB }])
      = .ok { version := trimRightZeros vslot, tempo := leNat tmp,
              tracks := [{ id := tid, instrument := instr, steps := stepsB }] })
    ∧ (decode (SPLICE ++ encBE 8 36 ++ vslot ++ tmp)
      = .ok { version := trimRightZeros vslot, tempo := leNat tmp,
              tracks := [] }) := by
  constructor
  · have hwf : ∀ t ∈ [({ id := tid, instrument := instr, steps := stepsB } : Track)],
        WFTrack t := by
      intro t htmem
      rw [List.mem_singleton] at htmem
      subst htmem
      exact ⟨hid, hinstr, hsteps⟩
    have hlen1 : (encTracks [({ id := tid, instrument := instr, steps := stepsB }
        : Track)]).length = 21 + instr.length := by
      simp [encTracks, encTrack, encLE_length, List.length_append, hsteps]
      omega
    have hbound : 36 + (encTracks [({ id := tid, instrument := instr, steps := stepsB }
        : Track)]).length < 2 ^ 63 := by
      rw [hlen1]
      omega
    have hmk := decodeR_mk _ vslot tmp
      (encTracks [({ id := tid, instrument := instr, steps := stepsB } : Track)]) []
      hv ht rfl hbound
    rw [List.append_nil] at hmk
    have happ := parseTracksR_append
      [({ id := tid, instrument := instr, steps := stepsB } : Track)] [] hwf
    rw [List.append_nil] at happ
    have h0 : parseTracksR [] = (.ok [], []) := rfl
    rw [h0] at happ
    unfold decode
    rw [hmk, happ]
    simp [Except.map]
  · have hmk := decodeR_mk 36 vslot tmp [] [] hv ht rfl (by norm_num)
    rw [List.append_nil, List.append_nil] at hmk
    unfold decode
    rw [hmk]
    rfl

/-- C10 witness: a track with arbitrary nonzero step values `2, 255, 7, 42`
among zeros comes back with exactly those bytes, and the zero-record stream
yields an empty (present) track list. -/
theorem decode_steps_raw_witness :
    (decode (SPLICE ++ encBE 8 57 ++ List.replicate 32 0 ++ [0, 0, 240, 66]
        ++ encTracks [{ id := 3, instrument := [],
                        steps := [2, 0, 255, 7, 1, 1, 3, 0, 9, 0, 0, 0, 0, 0, 0, 42] }])
      = .ok { version := [], tempo := 1123024896,
              tracks := [{ id := 3, instrument := [],
                           steps := [2, 0, 255, 7, 1, 1, 3, 0, 9, 0, 0, 0, 0, 0, 0, 42] }] })
    ∧ (decode (SPLICE ++ encBE 8 36 ++ List.replicate 32 0 ++ [0, 0, 240, 66])
      = .ok { version := [], tempo := 1123024896, tracks := [] }) :=
  decode_steps_raw 3 [] [2, 0, 255, 7, 1, 1, 3, 0, 9, 0, 0, 0, 0, 0, 0, 42]
    (List.replicate 32 0) [0, 0, 240, 66]
    (by decide) (by decide) (by decide) (by decide) (by decide)

end Drum
